import Mathlib

/-
Verification of the container library, byte-pair codec and social-graph
model of the repository (src/data_structures.py, src/xml_editor.py),
as a shallow embedding in Lean 4.
-/

set_option maxHeartbeats 1000000

namespace XmlProj

/-! ## Byte-pair codec (BytePairEncoder in src/data_structures.py)

A token is the text of one symbol, modelled as a list of characters
(Python represents it as a string).  The compressed payload joins the
tokens with a single space and decompression splits on that space. -/

/-- The separator character, a single space (code point 32). -/
def sep : Char := Char.ofNat 32

/-- A symbol of the codec: the text of one (possibly merged) token. -/
abbrev Tok := List Char

/-- Python str.split for a one-character separator: empty pieces are kept
and the empty string yields one empty piece. -/
def splitSp : List Char → List (List Char)
  | [] => [[]]
  | c :: rest =>
    if c = sep then [] :: splitSp rest
    else
      match splitSp rest with
      | [] => [[c]]
      | h :: t => (c :: h) :: t

/-- Python " ".join: interleave a single space between the tokens. -/
def joinSp : List Tok → List Char
  | [] => []
  | [t] => t
  | t :: u :: rest => t ++ sep :: joinSp (u :: rest)

/-- One replay step of BytePairEncoder.decompress: every token literally
equal to the merge token is replaced by the list of its individual
characters (Python list(token)); all other tokens are kept. -/
def replayStep (p : Tok) : List Tok → List Tok
  | [] => []
  | t :: rest => (if t = p then t.map (fun c => [c]) else [t]) ++ replayStep p rest

/-- The adjacent pairs of a token sequence, left to right
(the loop of BytePairEncoder._get_stats). -/
def pairsOf : List Tok → List (Tok × Tok)
  | a :: b :: rest => (a, b) :: pairsOf (b :: rest)
  | _ => []

/-- One update of the frequency dictionary: an existing key is incremented
in place, a new key is appended with count 1.  The association list keeps
the insertion order of a Python dict. -/
def bumpPair (stats : List ((Tok × Tok) × Nat)) (p : Tok × Tok) :
    List ((Tok × Tok) × Nat) :=
  if stats.any (fun q => q.1 = p) then
    stats.map (fun q => if q.1 = p then (q.1, q.2 + 1) else q)
  else stats ++ [(p, 1)]

/-- BytePairEncoder._get_stats: frequency of every adjacent token pair,
keys in first-occurrence order. -/
def getStats (text : List Tok) : List ((Tok × Tok) × Nat) :=
  (pairsOf text).foldl bumpPair []

/-- Python max(stats, key=stats.get): the first key, in dictionary order,
whose count no later key strictly exceeds.  none iff the map is empty. -/
def bestPair (stats : List ((Tok × Tok) × Nat)) : Option (Tok × Tok) :=
  match stats with
  | [] => none
  | p :: rest => some (rest.foldl (fun q r => if r.2 > q.2 then r else q) p).1

/-- The merge loop of BytePairEncoder.compress: replace every
non-overlapping left-to-right occurrence of the chosen pair by the single
token that concatenates the two texts of the pair. -/
def mergeTokens (p : Tok × Tok) : List Tok → List Tok
  | a :: b :: rest =>
    if (a, b) = p then (p.1 ++ p.2) :: mergeTokens p rest
    else a :: mergeTokens p (b :: rest)
  | l => l

/-- The for-loop of BytePairEncoder.compress: up to the given number of
rounds, pick the most frequent adjacent pair (stop early when no pair
exists), record its concatenation in the merge history and merge it. -/
def compressLoop : Nat → List Tok → List Tok → List Tok × List Tok
  | 0, text, hist => (text, hist)
  | Nat.succ n, text, hist =>
    match bestPair (getStats text) with
    | none => (text, hist)
    | some p => compressLoop n (mergeTokens p text) (hist ++ [p.1 ++ p.2])

/-- BytePairEncoder.compress: the input string as single-character tokens,
run the merge loop, join the final tokens with a space and return the
merge history. -/
def compress (data : String) (numMerges : Nat) : String × List String :=
  let r := compressLoop numMerges (data.toList.map (fun c => [c])) []
  (String.mk (joinSp r.1), r.2.map (fun t => String.mk t))

/-- BytePairEncoder.decompress: split the payload on spaces, replay the
merge history in reverse creation order with replayStep, and concatenate
the final tokens with no separator. -/
def decompress (compressedData : String) (mergesMap : List String) : String :=
  let tokens := splitSp compressedData.toList
  let final := (mergesMap.map (fun s => s.toList)).reverse.foldl
    (fun ts p => replayStep p ts) tokens
  String.mk final.flatten

/-- The collision hypothesis of the round-trip claim: no single character
of the input equals the literal text of a token in the returned merge
history. -/
def noCollision (s : String) (k : Nat) : Prop :=
  ∀ c ∈ s.toList, ∀ t ∈ (compress s k).2, String.mk [c] ≠ t

instance (s : String) (k : Nat) : Decidable (noCollision s k) := by
  unfold noCollision; infer_instance

/-! ### Codec lemmas -/

/-- Dropping every separator character from a character list. -/
def stripSep (l : List Char) : List Char := l.filter (fun c => !(c = sep))

theorem stripSep_nil : stripSep [] = [] := rfl

theorem stripSep_cons (c : Char) (l : List Char) :
    stripSep (c :: l) = if c = sep then stripSep l else c :: stripSep l := by
  by_cases h : c = sep <;> simp [stripSep, h]

theorem stripSep_append (l₁ l₂ : List Char) :
    stripSep (l₁ ++ l₂) = stripSep l₁ ++ stripSep l₂ := by
  simp [stripSep, List.filter_append]

theorem stripSep_eq_self (l : List Char) (h : sep ∉ l) : stripSep l = l := by
  induction l with
  | nil => rfl
  | cons c r ih =>
    rw [stripSep_cons]
    simp only [List.mem_cons, not_or] at h
    rw [if_neg (fun hc => h.1 hc.symm), ih h.2]

theorem splitSp_ne_nil (l : List Char) : splitSp l ≠ [] := by
  cases l with
  | nil => simp [splitSp]
  | cons c rest =>
    by_cases h : c = sep
    · simp [splitSp, h]
    · simp only [splitSp, if_neg h]
      cases splitSp rest <;> simp

theorem flatten_splitSp (l : List Char) : (splitSp l).flatten = stripSep l := by
  induction l with
  | nil => simp [splitSp, stripSep]
  | cons c rest ih =>
    rw [stripSep_cons]
    by_cases h : c = sep
    · simp [splitSp, h, ih]
    · simp only [splitSp, if_neg h]
      rcases he : splitSp rest with _ | ⟨hd, tl⟩
      · exact absurd he (splitSp_ne_nil rest)
      · have hflat : (hd :: tl).flatten = stripSep rest := by rw [← he, ih]
        simp only [List.flatten_cons] at hflat ⊢
        simp [hflat]

theorem stripSep_joinSp (ts : List Tok) (h : ∀ t ∈ ts, sep ∉ t) :
    stripSep (joinSp ts) = ts.flatten := by
  induction ts with
  | nil => simp [joinSp, stripSep]
  | cons t rest ih =>
    cases rest with
    | nil =>
      simp only [joinSp, List.flatten_cons, List.flatten_nil, List.append_nil]
      exact stripSep_eq_self t (h t (by simp))
    | cons u r =>
      simp only [joinSp, List.flatten_cons]
      rw [stripSep_append, stripSep_cons, if_pos rfl,
        stripSep_eq_self t (h t (by simp)),
        ih (fun x hx => h x (List.mem_cons_of_mem t hx))]
      simp

theorem flatten_map_singleton (l : List Char) :
    (l.map (fun c => [c])).flatten = l := by
  induction l with
  | nil => rfl
  | cons c r ih => simp [ih]

theorem replayStep_flatten (p : Tok) (ts : List Tok) :
    (replayStep p ts).flatten = ts.flatten := by
  induction ts with
  | nil => rfl
  | cons t rest ih =>
    by_cases h : t = p
    · simp [replayStep, h, ih, flatten_map_singleton]
    · simp [replayStep, h, ih]

theorem replayAll_flatten (ps : List Tok) (ts : List Tok) :
    (ps.foldl (fun ts p => replayStep p ts) ts).flatten = ts.flatten := by
  induction ps generalizing ts with
  | nil => rfl
  | cons p r ih => simp only [List.foldl_cons]; rw [ih, replayStep_flatten]

theorem mergeTokens_flatten (p : Tok × Tok) :
    ∀ ts : List Tok, (mergeTokens p ts).flatten = ts.flatten
  | [] => rfl
  | [a] => rfl
  | a :: b :: rest => by
    by_cases h : (a, b) = p
    · have h1 : p.1 = a := by rw [← h]
      have h2 : p.2 = b := by rw [← h]
      simp only [mergeTokens, if_pos h, List.flatten_cons,
        mergeTokens_flatten p rest, h1, h2]
      simp [List.append_assoc]
    · simp only [mergeTokens, if_neg h, List.flatten_cons,
        mergeTokens_flatten p (b :: rest)]

theorem mergeTokens_noSep (p : Tok × Tok) :
    ∀ ts : List Tok, (∀ t ∈ ts, sep ∉ t) → ∀ t ∈ mergeTokens p ts, sep ∉ t
  | [], _, t, ht => by simp [mergeTokens] at ht
  | [a], h, t, ht => by
    simp only [mergeTokens] at ht
    exact h t ht
  | a :: b :: rest, h, t, ht => by
    by_cases hp : (a, b) = p
    · have h1 : p.1 = a := by rw [← hp]
      have h2 : p.2 = b := by rw [← hp]
      simp only [mergeTokens, if_pos hp, List.mem_cons] at ht
      rcases ht with rfl | ht
      · rw [h1, h2]
        simp only [List.mem_append, not_or]
        exact ⟨h a (by simp), h b (by simp)⟩
      · exact mergeTokens_noSep p rest (fun x hx => h x (by simp [hx])) t ht
    · simp only [mergeTokens, if_neg hp, List.mem_cons] at ht
      rcases ht with rfl | ht
      · exact h t (by simp)
      · exact mergeTokens_noSep p (b :: rest)
          (fun x hx => h x (by simp [List.mem_cons] at hx ⊢; tauto)) t ht

theorem compressLoop_flatten (n : Nat) :
    ∀ (text hist : List Tok), ((compressLoop n text hist).1).flatten = text.flatten := by
  induction n with
  | zero => intro text hist; rfl
  | succ m ih =>
    intro text hist
    simp only [compressLoop]
    cases bestPair (getStats text) with
    | none => rfl
    | some p => rw [ih, mergeTokens_flatten]

theorem compressLoop_noSep (n : Nat) :
    ∀ (text hist : List Tok), (∀ t ∈ text, sep ∉ t) →
      ∀ t ∈ (compressLoop n text hist).1, sep ∉ t := by
  induction n with
  | zero => intro text hist h; exact h
  | succ m ih =>
    intro text hist h
    simp only [compressLoop]
    cases bestPair (getStats text) with
    | none => exact h
    | some p => exact ih _ _ (mergeTokens_noSep p text h)

theorem mk_toList (s : String) : String.mk s.toList = s := rfl

/-- The decompression of any payload with any history is the payload with
every separator character removed: replaying merges never changes the
concatenation of the tokens. -/
theorem decompress_eq_stripSep (c : String) (hist : List String) :
    decompress c hist = String.mk (stripSep c.toList) := by
  show String.mk (((hist.map (fun s => s.toList)).reverse.foldl
    (fun ts p => replayStep p ts) (splitSp c.toList)).flatten) = _
  rw [replayAll_flatten, flatten_splitSp]

/-! ### Claims about the codec -/

/-- C1 (counterexample): the round-trip claim fails as stated.  For the
input consisting of one space character and zero merges the collision
hypothesis holds vacuously (the merge history is empty), yet decompressing
the compressed payload returns the empty string, not the input: the
space-joined wire format cannot represent a space belonging to the data. -/
theorem C1_counterexample :
    noCollision " " 0 ∧
    decompress (compress " " 0).1 (compress " " 0).2 ≠ " " :=
  ⟨by decide, by decide⟩

/-- C1 (amended): for every finite string s that contains no space
character and whose characters never collide with a token of the returned
merge history, and for every number of merges k, decompressing the
compressed string returned by compress s k with the merge history it
returned yields exactly s. -/
theorem C1_roundtrip (s : String) (k : Nat) (hsp : sep ∉ s.toList)
    (_hcol : noCollision s k) :
    decompress (compress s k).1 (compress s k).2 = s := by
  rw [decompress_eq_stripSep]
  have htoks : (compress s k).1.toList
      = joinSp (compressLoop k (s.toList.map (fun c => [c])) []).1 := rfl
  rw [htoks]
  have hinit : ∀ t ∈ s.toList.map (fun c => [c]), sep ∉ t := by
    intro t ht
    simp only [List.mem_map] at ht
    obtain ⟨c, hc, rfl⟩ := ht
    simp only [List.mem_singleton]
    intro he
    exact hsp (he ▸ hc)
  rw [stripSep_joinSp _ (compressLoop_noSep k _ [] hinit),
    compressLoop_flatten, flatten_map_singleton]
  exact mk_toList s

/-- C1 witness: the amended round trip evaluated at the concrete input
"ab" with one merge. -/
theorem C1_roundtrip_witness :
    decompress (compress "ab" 1).1 (compress "ab" 1).2 = "ab" :=
  C1_roundtrip "ab" 1 (by decide) (by decide)

/-- C2 (counterexample): in the first replay step of
decompress "aaaa" ["aa", "aaaa"], the token "aaaa" is split into the four
individual characters, not into the two constituent symbols "aa", "aa"
asserted by the claim. -/
theorem C2_counterexample :
    replayStep ("aaaa" : String).toList (splitSp ("aaaa" : String).toList)
      = [['a'], ['a'], ['a'], ['a']] ∧
    replayStep ("aaaa" : String).toList (splitSp ("aaaa" : String).toList)
      ≠ [("aa" : String).toList, ("aa" : String).toList] :=
  ⟨by decide, by decide⟩

/-- C2 (amended): decompress replays merges in reverse creation order and
replaces every symbol equal to the current merge token by the list of its
individual characters.  Replaying ["aa", "aaaa"] on compressed "aaaa"
first splits "aaaa" into ["a", "a", "a", "a"]; the second step, splitting
"aa", finds no matching symbol and leaves the tokens unchanged; the final
symbols are concatenated with no separator, giving back "aaaa". -/
theorem C2_decompress_replay :
    splitSp ("aaaa" : String).toList = [['a', 'a', 'a', 'a']] ∧
    replayStep ("aaaa" : String).toList [['a', 'a', 'a', 'a']]
      = [['a'], ['a'], ['a'], ['a']] ∧
    replayStep ("aa" : String).toList [['a'], ['a'], ['a'], ['a']]
      = [['a'], ['a'], ['a'], ['a']] ∧
    decompress "aaaa" ["aa", "aaaa"] = "aaaa" := by
  refine ⟨by decide, by decide, by decide, by decide⟩

/-- C6: compressing "aaaa" with two merges first merges the pair
(a, a) everywhere, giving tokens ["aa", "aa"] and history ["aa"]; the
second round treats each "aa" as one symbol and merges the two of them
into ["aaaa"]; the call returns the payload "aaaa" with merge history
["aa", "aaaa"] in creation order. -/
theorem C6_compress_aaaa :
    bestPair (getStats (("aaaa" : String).toList.map (fun c => [c])))
      = some (['a'], ['a']) ∧
    mergeTokens (['a'], ['a']) (("aaaa" : String).toList.map (fun c => [c]))
      = [['a', 'a'], ['a', 'a']] ∧
    compressLoop 1 (("aaaa" : String).toList.map (fun c => [c])) []
      = ([['a', 'a'], ['a', 'a']], [['a', 'a']]) ∧
    bestPair (getStats [['a', 'a'], ['a', 'a']])
      = some (['a', 'a'], ['a', 'a']) ∧
    mergeTokens (['a', 'a'], ['a', 'a']) [['a', 'a'], ['a', 'a']]
      = [['a', 'a', 'a', 'a']] ∧
    compress "aaaa" 2 = ("aaaa", ["aa", "aaaa"]) := by
  refine ⟨by decide, by decide, ?_, by decide, by decide, by decide⟩
  decide

/-! ## DynamicArray and Stack (src/data_structures.py)

The backing storage is a Python list of length capacity whose slots are
initialised to None; a slot is modelled as an Option.  Index errors are
modelled with Except. -/

/-- The state of a DynamicArray: capacity, logical size, and the backing
storage of length capacity with None-initialised slots. -/
structure DynArr (α : Type) where
  capacity : Nat
  size : Nat
  data : List (Option α)
deriving DecidableEq

/-- DynamicArray.__init__ with the default capacity 2. -/
def initDA {α : Type} : DynArr α := ⟨2, 0, [none, none]⟩

/-- DynamicArray._resize: fresh None storage of the new capacity, with the
first size slots copied over. -/
def da_resize {α : Type} (a : DynArr α) (newCap : Nat) : DynArr α :=
  ⟨newCap, a.size, a.data.take a.size ++ List.replicate (newCap - a.size) none⟩

/-- DynamicArray.append: double the capacity when full, then write the
value into slot size and increment size. -/
def da_append {α : Type} (a : DynArr α) (v : α) : DynArr α :=
  let b := if a.size = a.capacity then da_resize a (2 * a.capacity) else a
  ⟨b.capacity, b.size + 1, b.data.set b.size (some v)⟩

/-- DynamicArray.get: the slot at the index, or an IndexError when the
index is not below size (a Nat index cannot be negative, which covers the
index < 0 branch of the source). -/
def da_get {α : Type} (a : DynArr α) (i : Nat) : Except String (Option α) :=
  if i < a.size then .ok (a.data.getD i none)
  else .error "DynamicArray index out of range."

/-- Appending each value of a list in order to a fresh DynamicArray. -/
def pushAllDA {α : Type} (vs : List α) : DynArr α := vs.foldl da_append initDA

/-- Stack.pop: an error on an empty stack, otherwise the last valid
element together with the state whose logical size is decremented; the
vacated slot is not cleared. -/
def da_pop {α : Type} (a : DynArr α) : Except String (Option α × DynArr α) :=
  if a.size = 0 then .error "Pop from empty stack"
  else
    match da_get a (a.size - 1) with
    | .error e => .error e
    | .ok v => .ok (v, ⟨a.capacity, a.size - 1, a.data⟩)

/-- Stack.peek: the explicit no-value answer None on an empty stack,
otherwise the last valid element (as in the source, a stored None and the
empty-stack answer are the same value). -/
def da_peek {α : Type} (a : DynArr α) : Option α :=
  if a.size = 0 then none
  else
    match da_get a (a.size - 1) with
    | .ok v => v
    | .error _ => none

/-- Popping n times in sequence, collecting the popped values in order;
any error aborts the run. -/
def popN {α : Type} : Nat → DynArr α → Except String (List (Option α) × DynArr α)
  | 0, st => .ok ([], st)
  | Nat.succ n, st =>
    match da_pop st with
    | .error e => .error e
    | .ok (v, st2) =>
      match popN n st2 with
      | .error e => .error e
      | .ok (vs, st3) => .ok (v :: vs, st3)

/-- The reachable-state invariant of a DynamicArray holding exactly the
values vs: size and storage agree with vs, size never exceeds capacity,
and the capacity is positive. -/
def daInv {α : Type} (a : DynArr α) (vs : List α) : Prop :=
  a.size = vs.length ∧ a.size ≤ a.capacity ∧ a.data.length = a.capacity ∧
    a.data.take a.size = vs.map some ∧ 0 < a.capacity

theorem daInv_init {α : Type} : daInv (initDA (α := α)) [] := by
  refine ⟨rfl, by simp [initDA], rfl, rfl, by simp [initDA]⟩

theorem take_set_succ {α : Type} (l : List α) (i : Nat) (x : α)
    (h : i < l.length) :
    (l.set i x).take (i + 1) = l.take i ++ [x] := by
  have h1 : (l.take i).length = i := by rw [List.length_take]; omega
  rw [List.set_eq_take_cons_drop x h, List.take_append_eq_append_take,
    List.take_of_length_le (by omega : (l.take i).length ≤ i + 1), h1]
  simp

/-- Appending to a valid array keeps the invariant with the new value at
the end. -/
theorem daInv_append {α : Type} (a : DynArr α) (vs : List α) (v : α)
    (h : daInv a vs) : daInv (da_append a v) (vs ++ [v]) := by
  obtain ⟨h1, h2, h3, h4, h5⟩ := h
  by_cases hfull : a.size = a.capacity
  · have hb : da_append a v =
        ⟨2 * a.capacity, a.size + 1,
          (a.data.take a.size ++ List.replicate (2 * a.capacity - a.size) none).set
            a.size (some v)⟩ := by
      simp [da_append, da_resize, if_pos hfull]
    have htklen : (a.data.take a.size).length = a.size := by
      rw [List.length_take]; omega
    have hdlen : (a.data.take a.size ++
        List.replicate (2 * a.capacity - a.size) none).length = 2 * a.capacity := by
      rw [List.length_append, htklen, List.length_replicate]; omega
    refine ⟨?_, ?_, ?_, ?_, ?_⟩
    · rw [hb]; simp [h1]
    · rw [hb]; simp only; omega
    · rw [hb]; simp only [List.length_set]; exact hdlen
    · rw [hb]; simp only
      rw [take_set_succ _ _ _ (by omega : a.size < _),
        List.take_append_of_le_length (le_of_eq htklen.symm),
        List.take_of_length_le (le_of_eq htklen), h4]
      simp
    · rw [hb]; simp only; omega
  · have hb : da_append a v =
        ⟨a.capacity, a.size + 1, a.data.set a.size (some v)⟩ := by
      simp [da_append, if_neg hfull]
    have hsz : a.size < a.capacity := lt_of_le_of_ne h2 hfull
    refine ⟨?_, ?_, ?_, ?_, ?_⟩
    · rw [hb]; simp [h1]
    · rw [hb]; simp only; omega
    · rw [hb]; simp only [List.length_set]; exact h3
    · rw [hb]; simp only
      rw [take_set_succ _ _ _ (by omega : a.size < a.data.length), h4]
      simp
    · rw [hb]; simp only; omega

/-- The invariant holds for every array built by a sequence of appends. -/
theorem pushAll_inv {α : Type} :
    ∀ (l : List α) (a : DynArr α) (vs : List α), daInv a vs →
      daInv (l.foldl da_append a) (vs ++ l) := by
  intro l
  induction l with
  | nil => intro a vs h; simpa using h
  | cons v r ih =>
    intro a vs h
    have := ih (da_append a v) (vs ++ [v]) (daInv_append a vs v h)
    simpa [List.append_assoc] using this

theorem pushAllDA_inv {α : Type} (vs : List α) : daInv (pushAllDA vs) vs := by
  have := pushAll_inv vs initDA [] daInv_init
  simpa [pushAllDA] using this

/-- Reading a valid index of a valid array yields the value stored there. -/
theorem daInv_get {α : Type} (a : DynArr α) (vs : List α) (h : daInv a vs)
    (i : Nat) (hi : i < vs.length) :
    da_get a i = .ok (some (vs.get ⟨i, hi⟩)) := by
  obtain ⟨h1, h2, h3, h4, h5⟩ := h
  have hsz : i < a.size := by omega
  unfold da_get
  rw [if_pos hsz]
  have hq : a.data[i]? = (a.data.take a.size)[i]? :=
    (List.getElem?_take_of_lt hsz).symm
  rw [List.getD_eq_getElem?_getD, hq, h4, List.getElem?_map,
    List.getElem?_eq_getElem hi]
  rfl

/-- C7: after any sequence of append calls on a fresh DynamicArray, the
length never exceeds the capacity and the elements at indices below the
length are exactly the appended values in order; moreover, whenever an
append hits a full array, the capacity is doubled before the write and
the existing elements are preserved in order. -/
theorem C7_growth {α : Type} (vs : List α) :
    (pushAllDA vs).size ≤ (pushAllDA vs).capacity ∧
    (pushAllDA vs).size = vs.length ∧
    (∀ i (hi : i < vs.length),
      da_get (pushAllDA vs) i = .ok (some (vs.get ⟨i, hi⟩))) ∧
    (∀ (b : DynArr α) (v : α), b.size = b.capacity → b.size ≤ b.data.length →
      (da_append b v).capacity = 2 * b.capacity ∧
      (da_append b v).data.take b.size = b.data.take b.size) := by
  have hinv := pushAllDA_inv vs
  refine ⟨hinv.2.1, hinv.1, fun i hi => daInv_get _ vs hinv i hi, ?_⟩
  intro b v hfull hle
  constructor
  · simp [da_append, da_resize, if_pos hfull]
  · have hb : (da_append b v).data =
        (b.data.take b.size ++ List.replicate (2 * b.capacity - b.size) none).set
          b.size (some v) := by
      simp [da_append, da_resize, if_pos hfull]
    rw [hb, List.set_take]
    have htk : (b.data.take b.size ++
        List.replicate (2 * b.capacity - b.size) none).take b.size
        = b.data.take b.size := by
      rw [List.take_append_of_le_length (by rw [List.length_take]; omega),
        List.take_take]
      simp
    rw [htk, List.set_eq_of_length_le]
    rw [List.length_take]; omega

/-- C7 witness: three appended values on a fresh array, with the growth
facts evaluated at index 1 and at a concrete full array. -/
theorem C7_growth_witness :
    da_get (pushAllDA [10, 20, 30]) 1 = .ok (some 20) ∧
    (da_append (⟨2, 2, [some 1, some 2]⟩ : DynArr Nat) 3).capacity = 4 := by
  refine ⟨(C7_growth [10, 20, 30]).2.2.1 1 (by decide),
    ((C7_growth [10, 20, 30]).2.2.2 ⟨2, 2, [some 1, some 2]⟩ 3 rfl (by decide)).1⟩

/-- Popping a valid non-empty array yields its last value and the array
holding the remaining values (the vacated slot keeps its stale content,
invisible through length-bounded access). -/
theorem da_pop_inv {α : Type} (a : DynArr α) (vs : List α) (v : α)
    (h : daInv a (vs ++ [v])) :
    ∃ a2, da_pop a = .ok (some v, a2) ∧ daInv a2 vs := by
  obtain ⟨h1, h2, h3, h4, h5⟩ := h
  have hlen : (vs ++ [v]).length = vs.length + 1 := by simp
  have hsz : a.size = vs.length + 1 := by omega
  have hget : da_get a (a.size - 1) = .ok (some v) := by
    have := daInv_get a (vs ++ [v]) ⟨h1, h2, h3, h4, h5⟩ vs.length (by simp)
    have hv : (vs ++ [v]).get ⟨vs.length, by simp⟩ = v := by
      simp [List.get_eq_getElem]
    rw [hv] at this
    have hidx : a.size - 1 = vs.length := by omega
    rw [hidx]
    exact this
  refine ⟨⟨a.capacity, a.size - 1, a.data⟩, ?_, ?_, ?_, ?_, ?_, ?_⟩
  · unfold da_pop
    rw [if_neg (by omega), hget]
  · simp only; omega
  · simp only; omega
  · exact h3
  · simp only
    have : a.data.take (a.size - 1) = (a.data.take a.size).take (a.size - 1) := by
      rw [List.take_take]
      congr 1
      omega
    rw [this, h4, hsz]
    have : vs.length + 1 - 1 = vs.length := by omega
    rw [this, ← List.map_take, List.take_append_of_le_length (le_refl _)]
    simp
  · exact h5

/-- Popping as many times as a valid array holds values succeeds and
yields the values in reverse order. -/
theorem popN_inv {α : Type} (vs : List α) :
    ∀ (a : DynArr α), daInv a vs →
      ∃ a2, popN vs.length a = .ok (vs.reverse.map some, a2) := by
  induction vs using List.reverseRecOn with
  | nil =>
    intro a _
    exact ⟨a, rfl⟩
  | append_singleton ys y ih =>
    intro a h
    obtain ⟨a2, hpop, hinv2⟩ := da_pop_inv a ys y h
    obtain ⟨a3, hrec⟩ := ih a2 hinv2
    refine ⟨a3, ?_⟩
    have hlen : (ys ++ [y]).length = ys.length + 1 := by simp
    rw [hlen]
    unfold popN
    rw [hpop]
    simp [hrec]

/-- C8: pushing the values of a list onto an empty stack and then popping
once per value yields the values in reverse push order.  Stack.push is
DynamicArray.append on the backing array of the stack, so the stack state is
the array state. -/
theorem C8_lifo {α : Type} (vs : List α) :
    ∃ a2, popN vs.length (pushAllDA vs) = .ok (vs.reverse.map some, a2) :=
  popN_inv vs (pushAllDA vs) (pushAllDA_inv vs)

/-- C9: popping the empty stack fails with the empty-container error,
surfaced immediately, while peeking the empty stack returns the explicit
no-value answer instead of failing. -/
theorem C9_empty_pop_peek :
    da_pop (initDA (α := Nat)) = .error "Pop from empty stack" ∧
    da_peek (initDA (α := Nat)) = none := by
  exact ⟨rfl, rfl⟩

/-! ## Social network graph (class SocialNetwork in src/xml_editor.py)

A user record carries id, name, the posts list and the follower-id list.
The user table and the follower DynamicArrays are modelled through their
length-bounded contents (DynamicArray.to_list), which the container
theorems above show to be exactly the appended values in order; the posts
linked list is its value list in insertion order.  Python sets are
modelled as duplicate-free lists; every property stated about them is
membership-only, so the unspecified iteration order of a Python set never
matters. -/

/-- A post: body text and the ordered topic list. -/
structure Post where
  body : String
  topics : List String
deriving DecidableEq

/-- One user record of the SocialNetwork user table. -/
structure UserRec where
  uid : String
  name : String
  posts : List Post
  followers : List String
deriving DecidableEq

/-- A placeholder record for out-of-range reads that the source never
performs. -/
def dummyUser : UserRec := ⟨"", "", [], []⟩

/-- The SocialNetwork state: the user table in insertion order. -/
abbrev Net := List UserRec

/-- SocialNetwork.find_user_index: index of the first user with the given
id; none models the not-found sentinel -1. -/
def find_user_index : Net → String → Option Nat
  | [], _ => none
  | u :: rest, x =>
    if u.uid = x then some 0
    else (find_user_index rest x).map (fun i => i + 1)

/-- SocialNetwork.add_user: a no-op when the id is already present,
otherwise append a fresh record with empty posts and followers. -/
def add_user (net : Net) (uid name : String) : Net :=
  match find_user_index net uid with
  | some _ => net
  | none => net ++ [⟨uid, name, [], []⟩]

/-- SocialNetwork.add_follower: a no-op when the followed id is unknown or
the follower id is already recorded; otherwise append the follower id.
The follower id itself is never looked up. -/
def add_follower (net : Net) (uid fid : String) : Net :=
  match find_user_index net uid with
  | none => net
  | some i =>
    let u := net.getD i dummyUser
    if fid ∈ u.followers then net
    else net.set i ⟨u.uid, u.name, u.posts, u.followers ++ [fid]⟩

/-- SocialNetwork.add_post: a no-op when the id is unknown, otherwise
append the post at the tail of the posts list of the user. -/
def add_post (net : Net) (uid body : String) (topics : List String) : Net :=
  match find_user_index net uid with
  | none => net
  | some i =>
    let u := net.getD i dummyUser
    net.set i ⟨u.uid, u.name, u.posts ++ [⟨body, topics⟩], u.followers⟩

/-- The out-degree of an id: the number of users whose follower list
contains it. -/
def out_degree (net : Net) (x : String) : Nat :=
  (net.filter (fun u => x ∈ u.followers)).length

/-- Setting a key of the counter dictionary to zero: an existing key is
overwritten in place, a new key is appended.  The association list keeps
the insertion order of a Python dict. -/
def dictSetZero (l : List (String × Nat)) (k : String) : List (String × Nat) :=
  if l.any (fun p => p.1 = k) then
    l.map (fun p => if p.1 = k then (p.1, 0) else p)
  else l ++ [(k, 0)]

/-- following_count.get(fid, 0) + 1 written back: an existing key is
incremented in place, a new key is appended with count 1. -/
def bumpCount (l : List (String × Nat)) (k : String) : List (String × Nat) :=
  if l.any (fun p => p.1 = k) then
    l.map (fun p => if p.1 = k then (p.1, p.2 + 1) else p)
  else l ++ [(k, 1)]

/-- The counter dictionary of find_most_active: every registered id starts
at zero, then every occurrence of an id in any follower list increments
it (ids met only as followers enter the dictionary at that point). -/
def activityCounts (net : Net) : List (String × Nat) :=
  net.foldl (fun l u => u.followers.foldl bumpCount l)
    (net.foldl (fun l u => dictSetZero l u.uid) [])

/-- One step of the maximum scan of find_most_active: an entry replaces
the current best only when strictly greater.  The initial best of -1 is
modelled by none, which the first entry always replaces, exactly as every
count exceeds -1. -/
def maxStep (best : Option (String × Nat)) (p : String × Nat) :
    Option (String × Nat) :=
  match best with
  | none => some p
  | some q => if p.2 > q.2 then some p else some q

/-- The maximum scan of find_most_active over the dictionary items in
order. -/
def maxScanA (l : List (String × Nat)) : Option (String × Nat) :=
  l.foldl maxStep none

/-- SocialNetwork.find_most_active: run the maximum scan, then look the
winning id up in the user table for its name; a missing winner or an
empty dictionary yields the no-user sentinel. -/
def find_most_active (net : Net) : Option String × Option String × Nat :=
  match maxScanA (activityCounts net) with
  | some (uid, v) =>
    match find_user_index net uid with
    | some i => (some uid, some ((net.getD i dummyUser).name), v)
    | none => (none, none, 0)
  | none => (none, none, 0)

/-- The follower list of the first user carrying the given id, empty when
the id is unknown. -/
def followersOfId (net : Net) (a : String) : List String :=
  match find_user_index net a with
  | some i => (net.getD i dummyUser).followers
  | none => []

/-- The loop of SocialNetwork.mutual_followers: intersect the running set
with the follower set of each remaining user, bailing out to the empty result
on an unknown id. -/
def mfLoop (net : Net) : List String → List String → List String
  | [], s => s
  | uid :: r, s =>
    match find_user_index net uid with
    | none => []
    | some j => mfLoop net r (s.filter (fun x => x ∈ (net.getD j dummyUser).followers))

/-- SocialNetwork.mutual_followers: empty input or an unknown id yields
the empty result, otherwise the intersection of the follower sets of all
listed users (the set of the list of the first user, then intersected in
turn). -/
def mutual_followers (net : Net) (ids : List String) : List String :=
  match ids with
  | [] => []
  | a :: rest =>
    match find_user_index net a with
    | none => []
    | some i => mfLoop net rest ((net.getD i dummyUser).followers.dedup)

/-- Python set.add on a set modelled as a duplicate-free list. -/
def setAdd (l : List String) (x : String) : List String :=
  if x ∈ l then l else l ++ [x]

/-- Step 1 of SocialNetwork.suggest_follows: the ids of the accounts the
given user currently follows, collected by scanning the follower list of
every user for the given id. -/
def currently_follows (net : Net) (uid : String) : List String :=
  net.foldl (fun acc u => if uid ∈ u.followers then setAdd acc u.uid else acc) []

/-- The body of the second loop of SocialNetwork.suggest_follows: look up
the followed account (skipping it when unknown) and add each of its
followers that is neither already followed nor the user itself. -/
def suggestAddFrom (net : Net) (cf : List String) (uid : String)
    (sug : List String) (w : String) : List String :=
  match find_user_index net w with
  | none => sug
  | some fi =>
    ((net.getD fi dummyUser).followers).foldl
      (fun s f => if f ∉ cf ∧ f ≠ uid then setAdd s f else s) sug

/-- SocialNetwork.suggest_follows: empty for an unknown id; otherwise
collect, over every account the user currently follows, the followers of
that account, excluding the user itself and every already-followed id. -/
def suggest_follows (net : Net) (uid : String) : List String :=
  match find_user_index net uid with
  | none => []
  | some _ =>
    let cf := currently_follows net uid
    cf.foldl (suggestAddFrom net cf uid) []

/-! ### Graph lemmas -/

/-- The user-table invariant: no two users share an id (spec section 3).
It holds for every state built through add_user, add_follower and
add_post. -/
def idsNodup (net : Net) : Prop := (net.map (fun u => u.uid)).Nodup

instance (net : Net) : Decidable (idsNodup net) := by
  unfold idsNodup; infer_instance

theorem find_user_index_spec (net : Net) (x : String) :
    ∀ i, find_user_index net x = some i →
      ∃ h : i < net.length, (net.get ⟨i, h⟩).uid = x := by
  induction net with
  | nil => intro i h; simp [find_user_index] at h
  | cons u rest ih =>
    intro i h
    by_cases hu : u.uid = x
    · simp only [find_user_index, if_pos hu, Option.some.injEq] at h
      subst h
      exact ⟨by simp, hu⟩
    · simp only [find_user_index, if_neg hu, Option.map_eq_some'] at h
      obtain ⟨j, hj, rfl⟩ := h
      obtain ⟨hlt, hx⟩ := ih j hj
      exact ⟨by simpa using hlt, by simpa using hx⟩

theorem getD_eq_get (net : Net) (i : Nat) (h : i < net.length) :
    net.getD i dummyUser = net.get ⟨i, h⟩ := by
  rw [List.getD_eq_getElem?_getD, List.getElem?_eq_getElem h]
  rfl

theorem find_mem (net : Net) (x : String) (i : Nat)
    (hf : find_user_index net x = some i) :
    net.getD i dummyUser ∈ net ∧ (net.getD i dummyUser).uid = x := by
  obtain ⟨h, hx⟩ := find_user_index_spec net x i hf
  rw [getD_eq_get net i h]
  exact ⟨List.get_mem net i h, hx⟩

theorem find_isSome (net : Net) (x : String) (w : UserRec) (hw : w ∈ net)
    (hx : w.uid = x) : ∃ i, find_user_index net x = some i := by
  induction net with
  | nil => simp at hw
  | cons u rest ih =>
    by_cases hu : u.uid = x
    · exact ⟨0, by simp [find_user_index, hu]⟩
    · rcases List.mem_cons.mp hw with rfl | hw2
      · exact absurd hx hu
      · obtain ⟨j, hj⟩ := ih hw2
        exact ⟨j + 1, by simp [find_user_index, hu, hj]⟩

theorem uid_unique (net : Net) (hnd : idsNodup net) (w w' : UserRec)
    (hw : w ∈ net) (hw' : w' ∈ net) (he : w.uid = w'.uid) : w = w' := by
  obtain ⟨⟨i, hi⟩, rfl⟩ := List.mem_iff_get.mp hw
  obtain ⟨⟨j, hj⟩, rfl⟩ := List.mem_iff_get.mp hw'
  have hmap : (net.map (fun u => u.uid)).get ⟨i, by simpa using hi⟩
      = (net.map (fun u => u.uid)).get ⟨j, by simpa using hj⟩ := by
    simp only [List.get_eq_getElem, List.getElem_map]
    exact he
  have hij := (List.Nodup.get_inj_iff hnd).mp hmap
  have : i = j := by simpa using hij
  subst this
  rfl

/-- The user found for an id equals any table member carrying that id,
when ids are unique. -/
theorem find_eq_of_mem (net : Net) (hnd : idsNodup net) (w : UserRec)
    (hw : w ∈ net) (i : Nat) (hf : find_user_index net w.uid = some i) :
    net.getD i dummyUser = w := by
  obtain ⟨hm, hx⟩ := find_mem net w.uid i hf
  exact uid_unique net hnd _ w hm hw hx

/-! ### C10: follower ids are never validated -/

/-- The graph used to exhibit an unregistered id in a mutual-followers
result: users A and B, each with the unregistered follower X. -/
def netMutual : Net :=
  add_follower (add_follower (add_user (add_user [] "A" "nA") "B" "nB") "A" "X") "B" "X"

/-- The graph used to exhibit an unregistered id in a suggestion result:
users A, B, C; C follows A, and the unregistered X also follows A. -/
def netSuggest : Net :=
  add_follower (add_follower
    (add_user (add_user (add_user [] "A" "nA") "B" "nB") "C" "nC") "A" "C") "A" "X"

/-- C10: when the followed id is present and the follower id is not yet
recorded, add_follower appends the follower id without ever looking it up
(no hypothesis about the follower id being registered is needed), so
follower lists - and hence mutual-followers and suggestion results - can
contain ids that are not registered users, as the concrete graphs show
for the unregistered id X. -/
theorem C10_follower_unchecked :
    (∀ (net : Net) (uid fid : String) (i : Nat),
      find_user_index net uid = some i →
      fid ∉ (net.getD i dummyUser).followers →
      add_follower net uid fid =
        net.set i ⟨(net.getD i dummyUser).uid, (net.getD i dummyUser).name,
          (net.getD i dummyUser).posts,
          (net.getD i dummyUser).followers ++ [fid]⟩) ∧
    "X" ∈ mutual_followers netMutual ["A", "B"] ∧
    find_user_index netMutual "X" = none ∧
    "X" ∈ suggest_follows netSuggest "C" ∧
    find_user_index netSuggest "X" = none := by
  refine ⟨?_, by decide, by decide, by decide, by decide⟩
  intro net uid fid i hf hm
  simp only [add_follower, hf]
  rw [if_neg hm]

/-- C10 witness: the append clause applied to a one-user table and a
follower id that is not a registered user. -/
theorem C10_follower_unchecked_witness :
    add_follower [⟨"A", "nA", [], []⟩] "A" "Z"
      = [⟨"A", "nA", [], ["Z"]⟩] :=
  C10_follower_unchecked.1 [⟨"A", "nA", [], []⟩] "A" "Z" 0 rfl (by decide)

/-! ### C5: mutual followers -/

theorem mfLoop_unknown (net : Net) :
    ∀ (r : List String) (s : List String) (a : String), a ∈ r →
      find_user_index net a = none → mfLoop net r s = [] := by
  intro r
  induction r with
  | nil => intro s a ha; simp at ha
  | cons uid r2 ih =>
    intro s a ha hnone
    rcases List.mem_cons.mp ha with rfl | ha2
    · simp [mfLoop, hnone]
    · simp only [mfLoop]
      cases hf : find_user_index net uid with
      | none => rfl
      | some j => exact ih _ a ha2 hnone

theorem mfLoop_mem (net : Net) :
    ∀ (r : List String) (s : List String) (x : String),
      x ∈ mfLoop net r s ↔
        x ∈ s ∧ ∀ uid ∈ r, ∃ j, find_user_index net uid = some j ∧
          x ∈ (net.getD j dummyUser).followers := by
  intro r
  induction r with
  | nil => intro s x; simp [mfLoop]
  | cons uid r2 ih =>
    intro s x
    simp only [mfLoop]
    cases hf : find_user_index net uid with
    | none =>
      simp only [List.not_mem_nil, false_iff, not_and, not_forall]
      intro _
      refine ⟨uid, by simp, ?_⟩
      simp [hf]
    | some j =>
      rw [ih]
      simp only [List.mem_filter, List.mem_cons, decide_eq_true_eq]
      constructor
      · rintro ⟨⟨hs, hfl⟩, hrest⟩
        refine ⟨hs, ?_⟩
        intro u hu
        rcases hu with rfl | hu2
        · exact ⟨j, hf, hfl⟩
        · exact hrest u hu2
      · rintro ⟨hs, hall⟩
        obtain ⟨j2, hj2, hfl2⟩ := hall uid (Or.inl rfl)
        rw [hf] at hj2
        cases hj2
        exact ⟨⟨hs, hfl2⟩, fun u hu => hall u (Or.inr hu)⟩

/-- C5: mutual_followers returns the empty result on the empty id list
and whenever any listed id is unknown; otherwise membership in the result
is exactly membership in the follower list of every listed user; consequently
the result for a single id is the follower set of that user and listing
an id twice changes nothing. -/
theorem C5_mutual (net : Net) (hnd : idsNodup net) :
    mutual_followers net [] = [] ∧
    (∀ (ids : List String) (a : String), a ∈ ids →
      find_user_index net a = none → mutual_followers net ids = []) ∧
    (∀ (ids : List String) (x : String),
      x ∈ mutual_followers net ids ↔
        ids ≠ [] ∧ ∀ a ∈ ids, ∃ w ∈ net, w.uid = a ∧ x ∈ w.followers) ∧
    (∀ a : String, mutual_followers net [a, a] = mutual_followers net [a]) ∧
    (∀ a x : String, x ∈ mutual_followers net [a] ↔ x ∈ followersOfId net a) := by
  have hfind : ∀ (a x : String) (j : Nat), find_user_index net a = some j →
      (x ∈ (net.getD j dummyUser).followers ↔
        ∃ w ∈ net, w.uid = a ∧ x ∈ w.followers) := by
    intro a x j hj
    obtain ⟨hm, hx⟩ := find_mem net a j hj
    constructor
    · intro h
      exact ⟨net.getD j dummyUser, hm, hx, h⟩
    · rintro ⟨w, hw, hwa, hwf⟩
      have : net.getD j dummyUser = w :=
        uid_unique net hnd _ w hm hw (by rw [hx, hwa])
      rw [this]
      exact hwf
  refine ⟨rfl, ?_, ?_, ?_, ?_⟩
  · intro ids a ha hnone
    cases ids with
    | nil => rfl
    | cons b rest =>
      simp only [mutual_followers]
      cases hf : find_user_index net b with
      | none => rfl
      | some i =>
        rcases List.mem_cons.mp ha with rfl | ha2
        · rw [hf] at hnone; cases hnone
        · exact mfLoop_unknown net rest _ a ha2 hnone
  · intro ids x
    cases ids with
    | nil => simp [mutual_followers]
    | cons b rest =>
      simp only [mutual_followers, ne_eq, reduceCtorEq, not_false_eq_true, true_and]
      cases hf : find_user_index net b with
      | none =>
        simp only [List.not_mem_nil, false_iff, not_forall]
        refine ⟨b, by simp, ?_⟩
        rintro ⟨w, hw, hwu, _⟩
        obtain ⟨j, hj⟩ := find_isSome net b w hw hwu
        rw [hf] at hj; cases hj
      | some i =>
        rw [mfLoop_mem, List.mem_dedup, hfind b x i hf]
        constructor
        · rintro ⟨hb, hrest⟩
          intro a ha
          rcases List.mem_cons.mp ha with rfl | ha2
          · exact hb
          · obtain ⟨j, hj, hfl⟩ := hrest a ha2
            exact (hfind a x j hj).mp hfl
        · intro hall
          refine ⟨hall b (by simp), ?_⟩
          intro a ha2
          obtain ⟨w, hw2, hwu, hwf⟩ := hall a (by simp [ha2])
          obtain ⟨j, hj⟩ := find_isSome net a w hw2 hwu
          exact ⟨j, hj, (hfind a x j hj).mpr ⟨w, hw2, hwu, hwf⟩⟩
  · intro a
    simp only [mutual_followers]
    cases hf : find_user_index net a with
    | none => rfl
    | some i =>
      simp only [mfLoop, hf]
      apply List.filter_eq_self.mpr
      intro x hx
      simpa using List.mem_dedup.mp hx
  · intro a x
    simp only [mutual_followers, followersOfId]
    cases hf : find_user_index net a with
    | none => rfl
    | some i =>
      simp only [mfLoop]
      exact List.mem_dedup

/-! ### C4: follow suggestions -/

theorem mem_setAdd (l : List String) (y x : String) :
    x ∈ setAdd l y ↔ x ∈ l ∨ x = y := by
  unfold setAdd
  by_cases hy : y ∈ l
  · rw [if_pos hy]
    constructor
    · exact Or.inl
    · rintro (h | rfl)
      · exact h
      · exact hy
  · rw [if_neg hy]
    simp

theorem mem_cf_fold (uid x : String) :
    ∀ (l : Net) (acc : List String),
      x ∈ l.foldl (fun acc u => if uid ∈ u.followers then setAdd acc u.uid else acc) acc ↔
        x ∈ acc ∨ ∃ u ∈ l, uid ∈ u.followers ∧ u.uid = x := by
  intro l
  induction l with
  | nil => intro acc; simp
  | cons u rest ih =>
    intro acc
    simp only [List.foldl_cons]
    by_cases hu : uid ∈ u.followers
    · rw [if_pos hu, ih, mem_setAdd]
      constructor
      · rintro ((h | rfl) | ⟨w, hw, hwf, hwx⟩)
        · exact Or.inl h
        · exact Or.inr ⟨u, by simp, hu, rfl⟩
        · exact Or.inr ⟨w, by simp [hw], hwf, hwx⟩
      · rintro (h | ⟨w, hw, hwf, hwx⟩)
        · exact Or.inl (Or.inl h)
        · rcases List.mem_cons.mp hw with rfl | hw2
          · exact Or.inl (Or.inr hwx.symm)
          · exact Or.inr ⟨w, hw2, hwf, hwx⟩
    · rw [if_neg hu, ih]
      constructor
      · rintro (h | ⟨w, hw, hwf, hwx⟩)
        · exact Or.inl h
        · exact Or.inr ⟨w, by simp [hw], hwf, hwx⟩
      · rintro (h | ⟨w, hw, hwf, hwx⟩)
        · exact Or.inl h
        · rcases List.mem_cons.mp hw with rfl | hw2
          · exact absurd hwf hu
          · exact Or.inr ⟨w, hw2, hwf, hwx⟩

theorem mem_currently_follows (net : Net) (uid x : String) :
    x ∈ currently_follows net uid ↔
      ∃ u ∈ net, uid ∈ u.followers ∧ u.uid = x := by
  unfold currently_follows
  rw [mem_cf_fold]
  simp

theorem mem_suggest_inner (cf : List String) (uid x : String) :
    ∀ (fl : List String) (s0 : List String),
      x ∈ fl.foldl (fun s f => if f ∉ cf ∧ f ≠ uid then setAdd s f else s) s0 ↔
        x ∈ s0 ∨ (x ∈ fl ∧ x ∉ cf ∧ x ≠ uid) := by
  intro fl
  induction fl with
  | nil => intro s0; simp
  | cons f r ih =>
    intro s0
    simp only [List.foldl_cons]
    by_cases hc : f ∉ cf ∧ f ≠ uid
    · rw [if_pos hc, ih]
      by_cases hx : x = f
      · subst hx
        rw [mem_setAdd]
        constructor
        · rintro ((h | _) | ⟨_, h2⟩)
          · exact Or.inl h
          · exact Or.inr ⟨by simp, hc⟩
          · exact Or.inr ⟨by simp, h2⟩
        · rintro (h | _)
          · exact Or.inl (Or.inl h)
          · exact Or.inl (Or.inr rfl)
      · rw [mem_setAdd]
        constructor
        · rintro ((h | h) | ⟨h1, h2⟩)
          · exact Or.inl h
          · exact absurd h hx
          · exact Or.inr ⟨by simp [h1], h2⟩
        · rintro (h | ⟨h1, h2⟩)
          · exact Or.inl (Or.inl h)
          · rcases List.mem_cons.mp h1 with rfl | h3
            · exact absurd rfl hx
            · exact Or.inr ⟨h3, h2⟩
    · rw [if_neg hc, ih]
      constructor
      · rintro (h | ⟨h1, h2⟩)
        · exact Or.inl h
        · exact Or.inr ⟨by simp [h1], h2⟩
      · rintro (h | ⟨h1, h2⟩)
        · exact Or.inl h
        · rcases List.mem_cons.mp h1 with rfl | h3
          · exact absurd h2 hc
          · exact Or.inr ⟨h3, h2⟩

theorem mem_suggest_outer (net : Net) (cf : List String) (uid x : String) :
    ∀ (l : List String) (acc : List String),
      x ∈ l.foldl (suggestAddFrom net cf uid) acc ↔
        x ∈ acc ∨ ∃ w ∈ l, ∃ fi, find_user_index net w = some fi ∧
          x ∈ (net.getD fi dummyUser).followers ∧ x ∉ cf ∧ x ≠ uid := by
  intro l
  induction l with
  | nil => intro acc; simp
  | cons w r ih =>
    intro acc
    simp only [List.foldl_cons]
    cases hf : find_user_index net w with
    | none =>
      have hstep : suggestAddFrom net cf uid acc w = acc := by
        simp [suggestAddFrom, hf]
      rw [hstep, ih]
      constructor
      · rintro (h | ⟨v, hv, fi, hfi, hrest⟩)
        · exact Or.inl h
        · exact Or.inr ⟨v, by simp [hv], fi, hfi, hrest⟩
      · rintro (h | ⟨v, hv, fi, hfi, hrest⟩)
        · exact Or.inl h
        · rcases List.mem_cons.mp hv with rfl | hv2
          · rw [hf] at hfi; cases hfi
          · exact Or.inr ⟨v, hv2, fi, hfi, hrest⟩
    | some fi =>
      have hstep : suggestAddFrom net cf uid acc w =
          ((net.getD fi dummyUser).followers).foldl
            (fun s f => if f ∉ cf ∧ f ≠ uid then setAdd s f else s) acc := by
        simp [suggestAddFrom, hf]
      rw [hstep, ih, mem_suggest_inner]
      constructor
      · rintro ((h | ⟨h1, h2⟩) | ⟨v, hv, fj, hfj, hrest⟩)
        · exact Or.inl h
        · exact Or.inr ⟨w, by simp, fi, hf, h1, h2⟩
        · exact Or.inr ⟨v, by simp [hv], fj, hfj, hrest⟩
      · rintro (h | ⟨v, hv, fj, hfj, hx, hrest⟩)
        · exact Or.inl (Or.inl h)
        · rcases List.mem_cons.mp hv with rfl | hv2
          · rw [hf] at hfj
            cases hfj
            exact Or.inl (Or.inr ⟨hx, hrest⟩)
          · exact Or.inr ⟨v, hv2, fj, hfj, hx, hrest⟩

/-- C4: suggest_follows returns the empty result for an unknown user id,
and every id in a suggestion result differs from the user, is not an id
the user already follows (no account with that id has the user in its
follower list), and lies in the follower list of some account the user
currently follows. -/
theorem C4_suggest (net : Net) (hnd : idsNodup net) (uid : String) :
    (find_user_index net uid = none → suggest_follows net uid = []) ∧
    ∀ x ∈ suggest_follows net uid,
      x ≠ uid ∧ x ∉ currently_follows net uid ∧
      (∀ w ∈ net, uid ∈ w.followers → w.uid ≠ x) ∧
      ∃ w ∈ net, uid ∈ w.followers ∧ x ∈ w.followers := by
  constructor
  · intro hnone
    simp [suggest_follows, hnone]
  · intro x hx
    rcases hfu : find_user_index net uid with _ | i
    · rw [suggest_follows, hfu] at hx
      simp at hx
    · rw [suggest_follows, hfu] at hx
      rw [mem_suggest_outer] at hx
      rcases hx with h | ⟨w, hwcf, fi, hfi, hxfl, hxcf, hxuid⟩
      · simp at h
      refine ⟨hxuid, hxcf, ?_, ?_⟩
      · intro v hv hvf hvx
        exact hxcf ((mem_currently_follows net uid x).mpr ⟨v, hv, hvf, hvx⟩)
      · obtain ⟨u, hu, huf, huid⟩ := (mem_currently_follows net uid w).mp hwcf
        have heq : net.getD fi dummyUser = u := by
          apply find_eq_of_mem net hnd u hu fi
          rw [huid]
          exact hfi
        rw [heq] at hxfl
        exact ⟨u, hu, huf, hxfl⟩

/-- C4 witness: concrete clauses on the suggestion graph - the unknown id
Q yields the empty result, and the suggestion X for user C satisfies every
exclusion clause. -/
theorem C4_suggest_witness :
    suggest_follows netSuggest "Q" = [] ∧
    ("X" ≠ "C" ∧ "X" ∉ currently_follows netSuggest "C" ∧
      (∀ w ∈ netSuggest, "C" ∈ w.followers → w.uid ≠ "X") ∧
      ∃ w ∈ netSuggest, "C" ∈ w.followers ∧ "X" ∈ w.followers) :=
  ⟨(C4_suggest netSuggest (by decide) "Q").1 (by decide),
    (C4_suggest netSuggest (by decide) "C").2 "X" (by decide)⟩

/-! ### C3: most active user -/

/-- The number of occurrences of an id in a list of ids. -/
def countOcc (s : List String) (x : String) : Nat := s.count x

theorem countOcc_cons (y : String) (s : List String) (x : String) :
    countOcc (y :: s) x = countOcc s x + if y = x then 1 else 0 := by
  by_cases h : y = x <;> simp [countOcc, List.count_cons, h]

/-- Initialising the counter dictionary registers every id once, in user
order, with value zero. -/
theorem initCounts_fold (l : Net) :
    ∀ acc : List (String × Nat),
      (∀ u ∈ l, ∀ p ∈ acc, p.1 ≠ u.uid) →
      (l.map (fun u => u.uid)).Nodup →
      l.foldl (fun c u => dictSetZero c u.uid) acc
        = acc ++ l.map (fun u => (u.uid, 0)) := by
  induction l with
  | nil => intro acc _ _; simp
  | cons u rest ih =>
    intro acc hfresh hnd
    rw [List.map_cons, List.nodup_cons] at hnd
    have hnotkey : acc.any (fun p => p.1 = u.uid) = false := by
      rw [List.any_eq_false]
      intro p hp
      simpa using hfresh u (by simp) p hp
    have hstep : dictSetZero acc u.uid = acc ++ [(u.uid, 0)] := by
      simp [dictSetZero, hnotkey]
    simp only [List.foldl_cons, hstep]
    rw [ih (acc ++ [(u.uid, 0)]) ?_ hnd.2]
    · simp
    · intro v hv p hp
      rcases List.mem_append.mp hp with h1 | h2
      · exact hfresh v (by simp [hv]) p h1
      · simp only [List.mem_singleton] at h2
        subst h2
        intro he
        apply hnd.1
        have he2 : u.uid = v.uid := he
        rw [he2]
        exact List.mem_map_of_mem (fun u => u.uid) hv

theorem bumpCount_key (l : List (String × Nat)) (k : String)
    (hk : ∃ p ∈ l, p.1 = k) :
    bumpCount l k = l.map (fun p => if p.1 = k then (p.1, p.2 + 1) else p) := by
  have hany : l.any (fun p => p.1 = k) = true := by
    rw [List.any_eq_true]
    obtain ⟨p, hp, he⟩ := hk
    exact ⟨p, hp, by simpa using he⟩
  simp [bumpCount, hany]

/-- Bumping the dictionary once per stream element adds, to each existing
key, the number of its occurrences in the stream, provided every stream
element is already a key. -/
theorem bumpFold (stream : List String) :
    ∀ l : List (String × Nat),
      (∀ x ∈ stream, ∃ p ∈ l, p.1 = x) →
      stream.foldl bumpCount l
        = l.map (fun p => (p.1, p.2 + countOcc stream p.1)) := by
  induction stream with
  | nil =>
    intro l _
    simp [countOcc]
  | cons x r ih =>
    intro l hkeys
    simp only [List.foldl_cons]
    rw [bumpCount_key l x (hkeys x (by simp))]
    rw [ih _ ?_]
    · rw [List.map_map]
      have hfun : ((fun p : String × Nat => (p.1, p.2 + countOcc r p.1)) ∘
            (fun p : String × Nat => if p.1 = x then (p.1, p.2 + 1) else p))
          = fun p : String × Nat => (p.1, p.2 + countOcc (x :: r) p.1) := by
        funext p
        obtain ⟨a, n⟩ := p
        by_cases h : a = x
        · subst h
          simp [countOcc_cons]
          omega
        · have hxa : ¬ x = a := fun he => h he.symm
          simp [countOcc_cons, h, hxa]
      rw [hfun]
    · intro y hy
      obtain ⟨p, hp, he⟩ := hkeys y (by simp [hy])
      refine ⟨if p.1 = x then (p.1, p.2 + 1) else p,
        List.mem_map_of_mem _ hp, ?_⟩
      by_cases h : p.1 = x
      · rw [if_pos h]
        exact he
      · rw [if_neg h]
        exact he

/-- The nested loop over users and their followers is the flat loop over
the concatenation of all follower lists. -/
theorem bumpPhase_eq (net : Net) (init : List (String × Nat)) :
    net.foldl (fun l u => u.followers.foldl bumpCount l) init
      = ((net.map (fun u => u.followers)).flatten).foldl bumpCount init := by
  rw [List.foldl_flatten, List.foldl_map]

/-- With duplicate-free follower lists, the occurrence count of an id
across all lists is its out-degree. -/
theorem countOcc_flatten_outdeg (x : String) :
    ∀ net : Net, (∀ u ∈ net, u.followers.Nodup) →
      countOcc ((net.map (fun u => u.followers)).flatten) x
        = out_degree net x := by
  intro net
  induction net with
  | nil => intro _; rfl
  | cons u rest ih =>
    intro h
    have h2 := ih (fun v hv => h v (by simp [hv]))
    simp only [List.map_cons, List.flatten_cons, countOcc, List.count_append,
      out_degree] at h2 ⊢
    by_cases hm : x ∈ u.followers
    · rw [List.filter_cons_of_pos (by simpa using hm), List.length_cons,
        List.count_eq_one_of_mem (h u (by simp)) hm, h2]
      omega
    · rw [List.filter_cons_of_neg (by simpa using hm),
        List.count_eq_zero_of_not_mem hm, h2]
      omega

/-- Under the graph invariants, with every follower id registered, the
counter dictionary of find_most_active lists every user in table order
with exactly its out-degree. -/
theorem activityCounts_eq (net : Net) (hnd : idsNodup net)
    (hfol : ∀ u ∈ net, u.followers.Nodup)
    (hreg : ∀ u ∈ net, ∀ f ∈ u.followers, ∃ w ∈ net, w.uid = f) :
    activityCounts net = net.map (fun u => (u.uid, out_degree net u.uid)) := by
  unfold activityCounts
  rw [initCounts_fold net [] (by simp) hnd, List.nil_append, bumpPhase_eq,
    bumpFold _ _ ?_]
  · rw [List.map_map]
    apply List.map_congr_left
    intro u _
    simp only [Function.comp]
    rw [countOcc_flatten_outdeg u.uid net hfol]
    simp
  · intro x hx
    rw [List.mem_flatten] at hx
    obtain ⟨fl, hfl, hxfl⟩ := hx
    rw [List.mem_map] at hfl
    obtain ⟨u, hu, rfl⟩ := hfl
    obtain ⟨w, hw, hwx⟩ := hreg u hu x hxfl
    exact ⟨(w.uid, 0), List.mem_map_of_mem _ hw, hwx⟩

/-- The running best of the maximum scan once a first entry is held. -/
def bestOf (b : String × Nat) (l : List (String × Nat)) : String × Nat :=
  l.foldl (fun q p => if p.2 > q.2 then p else q) b

theorem maxStep_some (b : String × Nat) (p : String × Nat) :
    maxStep (some b) p = some (if p.2 > b.2 then p else b) := by
  by_cases h : p.2 > b.2 <;> simp [maxStep, h]

theorem maxScanA_fold (l : List (String × Nat)) :
    ∀ b, l.foldl maxStep (some b) = some (bestOf b l) := by
  induction l with
  | nil => intro b; rfl
  | cons p r ih =>
    intro b
    simp only [List.foldl_cons, maxStep_some]
    by_cases h : p.2 > b.2
    · rw [if_pos h, ih p]
      simp only [bestOf, List.foldl_cons]
      rw [if_pos h]
    · rw [if_neg h, ih b]
      simp only [bestOf, List.foldl_cons]
      rw [if_neg h]

theorem maxScanA_cons (q : String × Nat) (l : List (String × Nat)) :
    maxScanA (q :: l) = some (bestOf q l) := by
  simp only [maxScanA, List.foldl_cons]
  exact maxScanA_fold l q

/-- The running best is the first entry of the scanned prefix attaining
the maximum: every entry is bounded by it and every earlier entry is
strictly below it. -/
theorem bestOf_spec (l : List (String × Nat)) :
    ∀ b : String × Nat, ∃ i, ∃ hi : i < (b :: l).length,
      bestOf b l = (b :: l).get ⟨i, hi⟩ ∧
      (∀ j (hj : j < (b :: l).length),
        ((b :: l).get ⟨j, hj⟩).2 ≤ ((b :: l).get ⟨i, hi⟩).2) ∧
      (∀ j (hj : j < (b :: l).length), j < i →
        ((b :: l).get ⟨j, hj⟩).2 < ((b :: l).get ⟨i, hi⟩).2) := by
  induction l with
  | nil =>
    intro b
    refine ⟨0, by simp, rfl, ?_, ?_⟩
    · intro j hj
      have hj0 : j = 0 := by simpa using hj
      subst hj0
      exact le_refl _
    · intro j hj hj0
      omega
  | cons p r ih =>
    intro b
    by_cases hpb : p.2 > b.2
    · obtain ⟨i, hi, heq, hb, hf⟩ := ih p
      refine ⟨i + 1, by simpa using hi, ?_, ?_, ?_⟩
      · show bestOf (if p.2 > b.2 then p else b) r = _
        rw [if_pos hpb]
        exact heq
      · intro j hj
        cases j with
        | zero => exact le_trans (le_of_lt hpb) (hb 0 (by simp))
        | succ k => exact hb k (by simpa using hj)
      · intro j hj hji
        cases j with
        | zero => exact lt_of_lt_of_le hpb (hb 0 (by simp))
        | succ k => exact hf k (by simpa using hj) (by omega)
    · obtain ⟨i, hi, heq, hb, hf⟩ := ih b
      cases i with
      | zero =>
        refine ⟨0, by simp, ?_, ?_, ?_⟩
        · show bestOf (if p.2 > b.2 then p else b) r = _
          rw [if_neg hpb]
          exact heq
        · intro j hj
          cases j with
          | zero => exact le_refl _
          | succ k =>
            cases k with
            | zero => exact Nat.le_of_not_lt hpb
            | succ m => exact hb (m + 1) (by simpa using hj)
        · intro j hj hj0
          omega
      | succ k =>
        refine ⟨k + 2, by simpa using hi, ?_, ?_, ?_⟩
        · show bestOf (if p.2 > b.2 then p else b) r = _
          rw [if_neg hpb]
          exact heq
        · intro j hj
          cases j with
          | zero => exact hb 0 (by simp)
          | succ m =>
            cases m with
            | zero => exact le_trans (Nat.le_of_not_lt hpb) (hb 0 (by simp))
            | succ n => exact hb (n + 1) (by simpa using hj)
        · intro j hj hji
          cases j with
          | zero => exact hf 0 (by simp) (by omega)
          | succ m =>
            cases m with
            | zero =>
              exact lt_of_le_of_lt (Nat.le_of_not_lt hpb) (hf 0 (by simp) (by omega))
            | succ n => exact hf (n + 1) (by simpa using hj) (by omega)

/-- The maximum scan of a non-empty dictionary returns the first entry
attaining the maximal count. -/
theorem maxScanA_spec (l : List (String × Nat)) (hne : l ≠ []) :
    ∃ i, ∃ hi : i < l.length,
      maxScanA l = some (l.get ⟨i, hi⟩) ∧
      (∀ j (hj : j < l.length), (l.get ⟨j, hj⟩).2 ≤ (l.get ⟨i, hi⟩).2) ∧
      (∀ j (hj : j < l.length), j < i →
        (l.get ⟨j, hj⟩).2 < (l.get ⟨i, hi⟩).2) := by
  cases l with
  | nil => exact absurd rfl hne
  | cons q r =>
    obtain ⟨i, hi, heq, hb, hf⟩ := bestOf_spec r q
    exact ⟨i, hi, by rw [maxScanA_cons, heq], hb, hf⟩

/-- With unique ids, looking up the id of the user at a position finds
exactly that position. -/
theorem find_get (net : Net) (hnd : idsNodup net) :
    ∀ (i : Nat) (hi : i < net.length),
      find_user_index net (net.get ⟨i, hi⟩).uid = some i := by
  induction net with
  | nil => intro i hi; simp at hi
  | cons u rest ih =>
    intro i hi
    rw [idsNodup, List.map_cons, List.nodup_cons] at hnd
    cases i with
    | zero => simp [find_user_index]
    | succ k =>
      have hk : k < rest.length := by simpa using hi
      have hne : ¬ u.uid = (rest.get ⟨k, hk⟩).uid := by
        intro he
        apply hnd.1
        rw [he]
        exact List.mem_map_of_mem (fun u => u.uid) (List.get_mem rest k hk)
      have hrec := ih hnd.2 k hk
      have hgg : ((u :: rest).get ⟨k + 1, hi⟩) = rest.get ⟨k, hk⟩ := rfl
      simp only [find_user_index, hgg]
      rw [if_neg hne, hrec]
      rfl

/-- C3 (counterexample): on the nonempty graph netMutual - users A and B,
each followed only by the unregistered id X - every registered user has
out-degree zero, yet find_most_active returns the no-user sentinel
instead of the first user in scan order with its maximal out-degree:
the strict maximum of the internal counters is held by the unregistered
id X, whose table lookup fails. -/
theorem C3_counterexample :
    netMutual.map (fun u => u.uid) = ["A", "B"] ∧
    (∀ u ∈ netMutual, out_degree netMutual u.uid = 0) ∧
    find_most_active netMutual = (none, none, 0) ∧
    find_most_active netMutual ≠ (some "A", some "nA", 0) := by
  refine ⟨by decide, by decide, by decide, by decide⟩

/-- C3 (amended): under the table invariants and with every follower id
registered, find_most_active returns the sentinel on the empty graph and
otherwise the id, name and out-degree of the first user in scan order
holding the maximal out-degree (strict-greater comparison).  Without the
registration assumption, an unregistered follower id can hold the strict
maximum of the internal counters, in which case the no-user sentinel is
returned even on a nonempty graph, as the counterexample shows. -/
theorem C3_most_active (net : Net) (hnd : idsNodup net)
    (hfol : ∀ u ∈ net, u.followers.Nodup)
    (hreg : ∀ u ∈ net, ∀ f ∈ u.followers, ∃ w ∈ net, w.uid = f) :
    (net = [] → find_most_active net = (none, none, 0)) ∧
    (net ≠ [] → ∃ i, ∃ hi : i < net.length,
      find_most_active net =
        (some (net.get ⟨i, hi⟩).uid, some (net.get ⟨i, hi⟩).name,
          out_degree net (net.get ⟨i, hi⟩).uid) ∧
      (∀ j (hj : j < net.length),
        out_degree net (net.get ⟨j, hj⟩).uid
          ≤ out_degree net (net.get ⟨i, hi⟩).uid) ∧
      (∀ j (hj : j < net.length), j < i →
        out_degree net (net.get ⟨j, hj⟩).uid
          < out_degree net (net.get ⟨i, hi⟩).uid)) := by
  have hcounts := activityCounts_eq net hnd hfol hreg
  constructor
  · rintro rfl
    rfl
  · intro hne
    have hmapne : net.map (fun u => (u.uid, out_degree net u.uid)) ≠ [] := by
      simpa using hne
    obtain ⟨i, hi, heq, hb, hf⟩ :=
      maxScanA_spec (net.map (fun u => (u.uid, out_degree net u.uid))) hmapne
    have hi2 : i < net.length := by simpa using hi
    have hgets : ∀ (j : Nat) (hj : j < (net.map
          (fun u => (u.uid, out_degree net u.uid))).length) (hj2 : j < net.length),
        (net.map (fun u => (u.uid, out_degree net u.uid))).get ⟨j, hj⟩
          = ((net.get ⟨j, hj2⟩).uid, out_degree net (net.get ⟨j, hj2⟩).uid) := by
      intro j hj hj2
      simp [List.get_eq_getElem, List.getElem_map]
    rw [hgets i hi hi2] at heq
    refine ⟨i, hi2, ?_, ?_, ?_⟩
    · unfold find_most_active
      rw [hcounts, heq]
      simp only [find_get net hnd i hi2, getD_eq_get net i hi2]
    · intro j hj
      have := hb j (by simpa using hj)
      rw [hgets j (by simpa using hj) hj, hgets i hi hi2] at this
      exact this
    · intro j hj hji
      have := hf j (by simpa using hj) hji
      rw [hgets j (by simpa using hj) hj, hgets i hi hi2] at this
      exact this

/-- The graph used as a witness for the most-active theorem: users A and
B, where B follows A. -/
def netActive : Net :=
  add_follower (add_user (add_user [] "A" "nA") "B" "nB") "A" "B"

/-- C3 witness: the amended most-active characterisation evaluated on the
two-user graph in which B follows A. -/
theorem C3_most_active_witness :
    (netActive = [] → find_most_active netActive = (none, none, 0)) ∧
    (netActive ≠ [] → ∃ i, ∃ hi : i < netActive.length,
      find_most_active netActive =
        (some (netActive.get ⟨i, hi⟩).uid, some (netActive.get ⟨i, hi⟩).name,
          out_degree netActive (netActive.get ⟨i, hi⟩).uid) ∧
      (∀ j (hj : j < netActive.length),
        out_degree netActive (netActive.get ⟨j, hj⟩).uid
          ≤ out_degree netActive (netActive.get ⟨i, hi⟩).uid) ∧
      (∀ j (hj : j < netActive.length), j < i →
        out_degree netActive (netActive.get ⟨j, hj⟩).uid
          < out_degree netActive (netActive.get ⟨i, hi⟩).uid)) :=
  C3_most_active netActive (by decide) (by decide) (by decide)

/-- C5 witness: the clauses of the mutual-followers theorem evaluated on
the two-user graph in which X follows both A and B. -/
theorem C5_mutual_witness :
    mutual_followers netMutual [] = [] ∧
    mutual_followers netMutual ["A", "A"] = mutual_followers netMutual ["A"] ∧
    ("X" ∈ mutual_followers netMutual ["A"] ↔ "X" ∈ followersOfId netMutual "A") :=
  ⟨(C5_mutual netMutual (by decide)).1,
    (C5_mutual netMutual (by decide)).2.2.2.1 "A",
    (C5_mutual netMutual (by decide)).2.2.2.2 "A" "X"⟩

end XmlProj
